import Mathlib

set_option linter.unusedVariables false

open scoped Matrix

/-
Verification of the proximal operator library `proxalgs/operators.py`.

The operators act elementwise on numpy arrays of floating point numbers;
we embed them over the rationals, modelling exact real arithmetic.
One-dimensional arrays are embedded as `List ℚ` (elementwise operators)
or as functions `Fin n → ℚ` (linear-algebra operators); shaped arrays are
embedded by the structure `NDArray` carrying a shape and the flat data.
External numerical routines (numpy, scipy) are modelled by executable
Lean definitions of their documented exact behaviour; failure by raised
exception is modelled with `Option`.
-/

/-! ## Elementwise operators on flat arrays -/

/-- One entry of `sparse` from `operators.py`:
`(x0 - lmbda) * (x0 >= lmbda) + (x0 + lmbda) * (x0 <= -lmbda)`,
where a numpy boolean is 1 when true and 0 when false. -/
def softThreshold (lmbda x : ℚ) : ℚ :=
  (x - lmbda) * (if lmbda ≤ x then 1 else 0) + (x + lmbda) * (if x ≤ -lmbda then 1 else 0)

/-- `sparse(x0, rho, gamma)` from `operators.py`: elementwise, with
`lmbda = float(gamma) / rho`. -/
def sparse (x0 : List ℚ) (rho gamma : ℚ) : List ℚ :=
  x0.map (softThreshold (gamma / rho))

/-- The soft threshold as the spec words it: `(x0 - lmbda)` where `x0 >= lmbda`,
`(x0 + lmbda)` where `x0 <= -lmbda`, else `0`. -/
def softThreshSpec (lmbda x : ℚ) : ℚ :=
  if lmbda ≤ x then x - lmbda else if x ≤ -lmbda then x + lmbda else 0

/-- `nonneg(x0, rho)` from `operators.py`: `np.maximum(x0, 0)`; `rho` unused. -/
def nonneg (x0 : List ℚ) (rho : ℚ) : List ℚ :=
  x0.map (fun x => max x 0)

/-- `squared_error(x0, rho, x_obs)` from `operators.py`:
`(x0 + x_obs / rho) / (1 + 1 / rho)` elementwise. -/
def squared_error (x0 : List ℚ) (rho : ℚ) (x_obs : List ℚ) : List ℚ :=
  List.zipWith (fun a b => (a + b / rho) / (1 + 1 / rho)) x0 x_obs

/-- The objective `||x - x_obs||^2 / 2 + (rho / 2) * ||x - x0||^2` whose minimizer
`squared_error` is claimed to compute. -/
def seObj (x0 x_obs : List ℚ) (rho : ℚ) (x : List ℚ) : ℚ :=
  (List.zipWith (fun t b => (t - b) ^ 2 / 2) x x_obs).sum
    + rho / 2 * (List.zipWith (fun t a => (t - a) ^ 2) x x0).sum

lemma softThreshold_eq_spec (lmbda x : ℚ) (h : 0 < lmbda) :
    softThreshold lmbda x = softThreshSpec lmbda x := by
  unfold softThreshold softThreshSpec
  split_ifs with h1 h2 <;> first | ring1 | linarith

/-- C1: for positive `rho` and `gamma`, `sparse` is the elementwise soft threshold
with threshold `lmbda = gamma / rho`, mapping an entry to `x0 - lmbda` where
`x0 >= lmbda`, to `x0 + lmbda` where `x0 <= -lmbda`, and to `0` otherwise; in
particular `sparse [3, -3, 1/2] 1 1 = [2, -2, 0]`. -/
theorem sparse_is_soft_threshold (x0 : List ℚ) (rho gamma : ℚ)
    (hr : 0 < rho) (hg : 0 < gamma) :
    sparse x0 rho gamma = x0.map (softThreshSpec (gamma / rho)) ∧
    sparse [3, -3, 1/2] 1 1 = [2, -2, 0] := by
  constructor
  · have hl : 0 < gamma / rho := div_pos hg hr
    unfold sparse
    have : softThreshold (gamma / rho) = softThreshSpec (gamma / rho) := by
      funext x; exact softThreshold_eq_spec _ x hl
    rw [this]
  · norm_num [sparse, softThreshold]

theorem sparse_is_soft_threshold_witness :
    0 < (1 : ℚ) ∧
    (sparse [3, -3, 1/2] 1 1 = [3, -3, 1/2].map (softThreshSpec ((1 : ℚ) / 1)) ∧
      sparse [3, -3, 1/2] 1 1 = [2, -2, 0]) :=
  ⟨by norm_num, sparse_is_soft_threshold [3, -3, 1/2] 1 1 (by norm_num) (by norm_num)⟩

/-- C2 counterexample: `[2]` lies in the image of `sparse (·, 1, 1)`
(it is `sparse [3] 1 1`), yet a second application of `sparse` shrinks it
again: `sparse (sparse [2] 1 1) 1 1 = [0]` while `sparse [2] 1 1 = [1]`. -/
theorem sparse_image_not_idempotent :
    sparse [(3 : ℚ)] 1 1 = [2] ∧
    sparse (sparse [(2 : ℚ)] 1 1) 1 1 ≠ sparse [(2 : ℚ)] 1 1 := by
  constructor
  · norm_num [sparse, softThreshold]
  · norm_num [sparse, softThreshold]

/-- C2 (amended): applying `sparse` twice with the same `(rho, gamma)` agrees with
applying it once whenever the input is a fixed point of `sparse (·, rho, gamma)`
(rather than merely lying in its image). -/
theorem sparse_idempotent_on_fixed_points (x0 : List ℚ) (rho gamma : ℚ)
    (h : sparse x0 rho gamma = x0) :
    sparse (sparse x0 rho gamma) rho gamma = sparse x0 rho gamma := by
  rw [h]; exact h

theorem sparse_idempotent_on_fixed_points_witness :
    sparse [(0 : ℚ)] 1 1 = [0] ∧
    sparse (sparse [(0 : ℚ)] 1 1) 1 1 = sparse [(0 : ℚ)] 1 1 :=
  ⟨by norm_num [sparse, softThreshold],
    sparse_idempotent_on_fixed_points [0] 1 1 (by norm_num [sparse, softThreshold])⟩

/-- C4: `nonneg` is the elementwise maximum with `0` (projection onto the
non-negative orthant), the result does not depend on `rho`, and
`nonneg [-1, 2, 0] 5 = [0, 2, 0]`. -/
theorem nonneg_is_projection (x0 : List ℚ) (rho rho2 : ℚ) :
    nonneg x0 rho = x0.map (fun x => max x 0) ∧
    nonneg x0 rho = nonneg x0 rho2 ∧
    nonneg [-1, 2, 0] 5 = [0, 2, 0] :=
  ⟨rfl, rfl, by norm_num [nonneg]⟩

lemma se_pointwise (rho a b y : ℚ) (hr : 0 < rho) :
    ((a + b / rho) / (1 + 1 / rho) - b) ^ 2 / 2
      + rho / 2 * ((a + b / rho) / (1 + 1 / rho) - a) ^ 2
      ≤ (y - b) ^ 2 / 2 + rho / 2 * (y - a) ^ 2 := by
  have hρ : rho ≠ 0 := ne_of_gt hr
  have hinv : 0 < 1 / rho := one_div_pos.mpr hr
  have hne : (1 : ℚ) + 1 / rho ≠ 0 := ne_of_gt (by linarith)
  have key : (y - b) ^ 2 / 2 + rho / 2 * (y - a) ^ 2
      - (((a + b / rho) / (1 + 1 / rho) - b) ^ 2 / 2
        + rho / 2 * ((a + b / rho) / (1 + 1 / rho) - a) ^ 2)
      = (1 + rho) / 2 * (y - (a + b / rho) / (1 + 1 / rho)) ^ 2 := by
    field_simp
    ring
  have hsq : 0 ≤ (1 + rho) / 2 * (y - (a + b / rho) / (1 + 1 / rho)) ^ 2 := by
    have h1r : (0 : ℚ) ≤ (1 + rho) / 2 := by linarith
    exact mul_nonneg h1r (sq_nonneg _)
  linarith

lemma seObj_cons (a b t : ℚ) (x0 x_obs x : List ℚ) (rho : ℚ) :
    seObj (a :: x0) (b :: x_obs) rho (t :: x)
      = ((t - b) ^ 2 / 2 + rho / 2 * (t - a) ^ 2) + seObj x0 x_obs rho x := by
  simp only [seObj, List.zipWith_cons_cons, List.sum_cons]
  ring

lemma squared_error_minimizes (rho : ℚ) (hr : 0 < rho) :
    ∀ (x0 x_obs y : List ℚ), x_obs.length = x0.length → y.length = x0.length →
      seObj x0 x_obs rho (squared_error x0 rho x_obs) ≤ seObj x0 x_obs rho y := by
  intro x0
  induction x0 with
  | nil =>
    intro x_obs y h1 h2
    rw [List.length_nil, List.length_eq_zero] at h1 h2
    subst h1; subst h2
    simp [seObj, squared_error]
  | cons a x0 ih =>
    intro x_obs y h1 h2
    cases x_obs with
    | nil => simp at h1
    | cons b x_obs =>
      cases y with
      | nil => simp at h2
      | cons t y =>
        have h1a : x_obs.length = x0.length := by simpa using h1
        have h2a : y.length = x0.length := by simpa using h2
        have hse : squared_error (a :: x0) rho (b :: x_obs)
            = ((a + b / rho) / (1 + 1 / rho)) :: squared_error x0 rho x_obs := rfl
        rw [hse, seObj_cons, seObj_cons]
        exact add_le_add (se_pointwise rho a b t hr) (ih x_obs y h1a h2a)

/-- C5: for positive `rho` and an observation array of the same length,
`squared_error x0 rho x_obs` equals `(x0 + x_obs / rho) / (1 + 1 / rho)`
elementwise, and it minimizes the objective
`||x - x_obs||^2 / 2 + (rho / 2) * ||x - x0||^2` over arrays of that length;
in particular `squared_error [1] 1 [3] = [2]`. -/
theorem squared_error_is_shrinkage (x0 x_obs : List ℚ) (rho : ℚ)
    (hr : 0 < rho) (hlen : x_obs.length = x0.length) :
    squared_error x0 rho x_obs
        = List.zipWith (fun a b => (a + b / rho) / (1 + 1 / rho)) x0 x_obs ∧
    (∀ y : List ℚ, y.length = x0.length →
      seObj x0 x_obs rho (squared_error x0 rho x_obs) ≤ seObj x0 x_obs rho y) ∧
    squared_error [1] 1 [3] = [2] :=
  ⟨rfl, fun y hy => squared_error_minimizes rho hr x0 x_obs y hlen hy,
    by norm_num [squared_error]⟩

theorem squared_error_is_shrinkage_witness :
    0 < (1 : ℚ) ∧ ([(3 : ℚ)] : List ℚ).length = [(1 : ℚ)].length ∧
    (squared_error [1] 1 [3]
        = List.zipWith (fun a b => (a + b / 1) / (1 + 1 / 1)) [(1 : ℚ)] [3] ∧
    (∀ y : List ℚ, y.length = [(1 : ℚ)].length →
      seObj [1] [3] 1 (squared_error [1] 1 [3]) ≤ seObj [1] [3] 1 y) ∧
    squared_error [1] 1 [3] = [2]) :=
  ⟨by norm_num, rfl, squared_error_is_shrinkage [1] [3] 1 (by norm_num) rfl⟩

lemma se_dual_pointwise (rho a b : ℚ) (h : rho ≠ 0) :
    (a + b / rho) / (1 + 1 / rho) = (b + a / (1 / rho)) / (1 + 1 / (1 / rho)) := by
  rw [one_div_one_div, div_div_eq_mul_div, div_one]
  by_cases hr1 : 1 + rho = 0
  · have hm : rho = -1 := by linarith
    subst hm
    norm_num
  · have e1 : (1 : ℚ) + 1 / rho = (1 + rho) / rho := by
      field_simp
      try ring1
    have e2 : (a + b / rho) * rho = b + a * rho := by
      field_simp
      try ring1
    rw [e1, div_div_eq_mul_div, e2]

/-- C10: swapping the anchor and the observation while inverting `rho` leaves
`squared_error` unchanged: for every nonzero `rho`,
`squared_error x0 rho x_obs = squared_error x_obs (1 / rho) x0`. -/
theorem squared_error_rho_duality (x0 : List ℚ) (rho : ℚ) (x_obs : List ℚ)
    (h : rho ≠ 0) :
    squared_error x0 rho x_obs = squared_error x_obs (1 / rho) x0 := by
  induction x0 generalizing x_obs with
  | nil => cases x_obs <;> simp [squared_error]
  | cons a x0 ih =>
    cases x_obs with
    | nil => simp [squared_error]
    | cons b x_obs =>
      show ((a + b / rho) / (1 + 1 / rho)) :: squared_error x0 rho x_obs
          = ((b + a / (1 / rho)) / (1 + 1 / (1 / rho))) :: squared_error x_obs (1 / rho) x0
      rw [se_dual_pointwise rho a b h, ih x_obs]

theorem squared_error_rho_duality_witness :
    (1 : ℚ) ≠ 0 ∧ squared_error [1] 1 [3] = squared_error [3] (1 / 1) [1] :=
  ⟨by norm_num, squared_error_rho_duality [1] 1 [3] (by norm_num)⟩

/-! ## Linear-algebra operators -/

/-- Model of the exact linear solvers `numpy.linalg.solve` and
`scipy.sparse.linalg.spsolve` called by `linsys` and `smooth`: the solution
of `A x = b` by the adjugate formula when `A` is nonsingular; the
linear-algebra error raised on a singular matrix is modelled as `none`. -/
def solveExact {n : ℕ} (A : Matrix (Fin n) (Fin n) ℚ) (b : Fin n → ℚ) :
    Option (Fin n → ℚ) :=
  if A.det = 0 then none else some (((A.det)⁻¹ • A.adjugate) *ᵥ b)

/-- `linsys(x0, rho, P, q)` from `operators.py`:
`np.linalg.solve(rho * np.eye(q.size) + P, rho * x0.copy() + q)`. -/
def linsys {n : ℕ} (x0 : Fin n → ℚ) (rho : ℚ) (P : Matrix (Fin n) (Fin n) ℚ)
    (q : Fin n → ℚ) : Option (Fin n → ℚ) :=
  solveExact (rho • (1 : Matrix (Fin n) (Fin n) ℚ) + P) (rho • x0 + q)

lemma solveExact_eq_none {n : ℕ} (A : Matrix (Fin n) (Fin n) ℚ) (b : Fin n → ℚ)
    (h : A.det = 0) : solveExact A b = none := by
  simp [solveExact, h]

lemma solveExact_eq_some {n : ℕ} (A : Matrix (Fin n) (Fin n) ℚ) (b : Fin n → ℚ)
    (h : A.det ≠ 0) :
    solveExact A b = some (((A.det)⁻¹ • A.adjugate) *ᵥ b) := by
  simp [solveExact, h]

lemma solveExact_sound {n : ℕ} (A : Matrix (Fin n) (Fin n) ℚ) (b x : Fin n → ℚ)
    (h : solveExact A b = some x) : A *ᵥ x = b := by
  by_cases hd : A.det = 0
  · simp [solveExact, hd] at h
  · rw [solveExact_eq_some A b hd, Option.some_inj] at h
    subst h
    rw [Matrix.mulVec_mulVec]
    have hone : A * ((A.det)⁻¹ • A.adjugate) = 1 := by
      rw [Matrix.mul_smul, Matrix.mul_adjugate, smul_smul, inv_mul_cancel₀ hd,
        one_smul]
    rw [hone, Matrix.one_mulVec]

/-- C6: `linsys x0 rho P q` returns a solution of the dense linear system
`(rho * I + P) x = rho * x0 + q` whenever `rho * I + P` is nonsingular, and
fails with a linear-algebra error (modelled as `none`) when it is singular. -/
theorem linsys_solves_system (n : ℕ) (x0 : Fin n → ℚ) (rho : ℚ)
    (P : Matrix (Fin n) (Fin n) ℚ) (q : Fin n → ℚ) (hr : 0 < rho) :
    (∀ x, linsys x0 rho P q = some x →
      (rho • (1 : Matrix (Fin n) (Fin n) ℚ) + P) *ᵥ x = rho • x0 + q) ∧
    ((rho • (1 : Matrix (Fin n) (Fin n) ℚ) + P).det ≠ 0 →
      ∃ x, linsys x0 rho P q = some x) ∧
    ((rho • (1 : Matrix (Fin n) (Fin n) ℚ) + P).det = 0 →
      linsys x0 rho P q = none) :=
  ⟨fun x hx => solveExact_sound _ _ x hx,
    fun hd => ⟨_, solveExact_eq_some _ _ hd⟩,
    fun hd => solveExact_eq_none _ _ hd⟩

theorem linsys_solves_system_witness :
    0 < (1 : ℚ) ∧
    ((∀ x, linsys ![1] 1 !![1] ![1] = some x →
      ((1 : ℚ) • (1 : Matrix (Fin 1) (Fin 1) ℚ) + !![1]) *ᵥ x
        = (1 : ℚ) • ![1] + ![1]) ∧
    (((1 : ℚ) • (1 : Matrix (Fin 1) (Fin 1) ℚ) + !![1]).det ≠ 0 →
      ∃ x, linsys ![1] 1 !![1] ![1] = some x) ∧
    (((1 : ℚ) • (1 : Matrix (Fin 1) (Fin 1) ℚ) + !![1]).det = 0 →
      linsys ![1] 1 !![1] ![1] = none)) :=
  ⟨by norm_num, linsys_solves_system 1 ![1] 1 !![1] ![1] (by norm_num)⟩

/-- The tridiagonal matrix assembled by `smooth` via
`spdiags([(2 + rho / gamma) * ones(n), -ones(n), -ones(n)], [0, -1, 1], n, n)`:
diagonal entries `2 + rho / gamma`, entries `-1` on the first sub- and
super-diagonal, `0` elsewhere. -/
def lap_op (n : ℕ) (rho gamma : ℚ) : Matrix (Fin n) (Fin n) ℚ :=
  Matrix.of fun i j =>
    if (i : ℕ) = (j : ℕ) then 2 + rho / gamma
    else if (i : ℕ) = (j : ℕ) + 1 ∨ (j : ℕ) = (i : ℕ) + 1 then -1 else 0

/-- `smooth(x0, rho, gamma)` from `operators.py`:
`spsolve(gamma * lap_op, rho * x0)`. -/
def smooth {n : ℕ} (x0 : Fin n → ℚ) (rho gamma : ℚ) : Option (Fin n → ℚ) :=
  solveExact (gamma • lap_op n rho gamma) (rho • x0)

lemma rat_norm_eq_abs (q : ℚ) : ‖q‖ = |(q : ℝ)| := by
  rw [← Rat.norm_cast_real, Real.norm_eq_abs]

lemma sum_ite_unique_le {n : ℕ} (s : Finset (Fin n)) (p : Fin n → Prop)
    [DecidablePred p] (c : ℝ) (hc : 0 ≤ c)
    (huniq : ∀ a b, p a → p b → a = b) :
    ∑ j ∈ s, (if p j then c else 0) ≤ c := by
  rw [← Finset.sum_filter, Finset.sum_const, nsmul_eq_mul]
  have hcard : (s.filter p).card ≤ 1 :=
    Finset.card_le_one.mpr fun a ha b hb =>
      huniq a b (Finset.mem_filter.mp ha).2 (Finset.mem_filter.mp hb).2
  have hcast : ((s.filter p).card : ℝ) ≤ 1 := by exact_mod_cast hcard
  calc ((s.filter p).card : ℝ) * c ≤ 1 * c := mul_le_mul_of_nonneg_right hcast hc
    _ = c := one_mul c

lemma lap_dominant (n : ℕ) (rho gamma : ℚ) (hr : 0 < rho) (hg : 0 < gamma)
    (k : Fin n) :
    ∑ j ∈ Finset.univ.erase k, ‖(gamma • lap_op n rho gamma) k j‖
      < ‖(gamma • lap_op n rho gamma) k k‖ := by
  have hgne : gamma ≠ 0 := ne_of_gt hg
  have hgR : (0 : ℝ) < (gamma : ℝ) := by exact_mod_cast hg
  have hrR : (0 : ℝ) < (rho : ℝ) := by exact_mod_cast hr
  have hdiag : (gamma • lap_op n rho gamma) k k = 2 * gamma + rho := by
    simp only [Matrix.smul_apply, lap_op, Matrix.of_apply, if_pos rfl,
      smul_eq_mul]
    field_simp
    try ring1
  have hdn : ‖(gamma • lap_op n rho gamma) k k‖ = 2 * (gamma : ℝ) + (rho : ℝ) := by
    rw [hdiag, rat_norm_eq_abs]
    push_cast
    rw [abs_of_pos (by linarith)]
  have hub : ∀ j ∈ Finset.univ.erase k,
      ‖(gamma • lap_op n rho gamma) k j‖
        ≤ (if (k : ℕ) = (j : ℕ) + 1 then (gamma : ℝ) else 0)
          + (if (j : ℕ) = (k : ℕ) + 1 then (gamma : ℝ) else 0) := by
    intro j hj
    have hjk : j ≠ k := (Finset.mem_erase.mp hj).1
    have hkj : ¬((k : ℕ) = (j : ℕ)) := fun hv => hjk (Fin.ext hv.symm)
    by_cases h1 : (k : ℕ) = (j : ℕ) + 1
    · have h2 : ¬((j : ℕ) = (k : ℕ) + 1) := by omega
      have hentry : (gamma • lap_op n rho gamma) k j = -gamma := by
        simp [Matrix.smul_apply, lap_op, Matrix.of_apply, hkj, h1, h2,
          smul_eq_mul]
      rw [hentry, rat_norm_eq_abs, if_pos h1, if_neg h2]
      push_cast
      rw [abs_neg, abs_of_pos hgR]
      linarith
    · by_cases h2 : (j : ℕ) = (k : ℕ) + 1
      · have hentry : (gamma • lap_op n rho gamma) k j = -gamma := by
          simp [Matrix.smul_apply, lap_op, Matrix.of_apply, hkj, h1, h2,
            smul_eq_mul]
        rw [hentry, rat_norm_eq_abs, if_neg h1, if_pos h2]
        push_cast
        rw [abs_neg, abs_of_pos hgR]
        linarith
      · have hentry : (gamma • lap_op n rho gamma) k j = 0 := by
          simp [Matrix.smul_apply, lap_op, Matrix.of_apply, hkj, h1, h2]
        rw [hentry, if_neg h1, if_neg h2]
        simp
  have hsum : ∑ j ∈ Finset.univ.erase k, ‖(gamma • lap_op n rho gamma) k j‖
      ≤ (gamma : ℝ) + (gamma : ℝ) := by
    calc ∑ j ∈ Finset.univ.erase k, ‖(gamma • lap_op n rho gamma) k j‖
        ≤ ∑ j ∈ Finset.univ.erase k,
            ((if (k : ℕ) = (j : ℕ) + 1 then (gamma : ℝ) else 0)
              + (if (j : ℕ) = (k : ℕ) + 1 then (gamma : ℝ) else 0)) :=
          Finset.sum_le_sum hub
      _ = (∑ j ∈ Finset.univ.erase k,
            (if (k : ℕ) = (j : ℕ) + 1 then (gamma : ℝ) else 0))
          + ∑ j ∈ Finset.univ.erase k,
            (if (j : ℕ) = (k : ℕ) + 1 then (gamma : ℝ) else 0) :=
          Finset.sum_add_distrib
      _ ≤ (gamma : ℝ) + (gamma : ℝ) := by
          refine add_le_add ?_ ?_
          · exact sum_ite_unique_le _ _ _ (le_of_lt hgR)
              (fun a b ha hb => Fin.ext (by omega))
          · exact sum_ite_unique_le _ _ _ (le_of_lt hgR)
              (fun a b ha hb => Fin.ext (by omega))
  rw [hdn]
  linarith

lemma lap_det_ne_zero (n : ℕ) (rho gamma : ℚ) (hr : 0 < rho) (hg : 0 < gamma) :
    (gamma • lap_op n rho gamma).det ≠ 0 :=
  det_ne_zero_of_sum_row_lt_diag fun k => lap_dominant n rho gamma hr hg k

/-- C7: for a one-dimensional `x0` and positive `rho` and `gamma`, the matrix
built by `smooth` is the tridiagonal matrix with diagonal `2 + rho / gamma`
and `-1` on the first sub- and super-diagonal, and `smooth` returns a
solution `x` of the linear system `gamma * L * x = rho * x0` (which always
exists, the system being strictly diagonally dominant). -/
theorem smooth_solves_laplacian (n : ℕ) (x0 : Fin n → ℚ) (rho gamma : ℚ)
    (hr : 0 < rho) (hg : 0 < gamma) :
    (∀ i j : Fin n, lap_op n rho gamma i j =
      if i = j then 2 + rho / gamma
      else if (i : ℕ) = (j : ℕ) + 1 ∨ (j : ℕ) = (i : ℕ) + 1 then -1 else 0) ∧
    ∃ x, smooth x0 rho gamma = some x ∧
      (gamma • lap_op n rho gamma) *ᵥ x = rho • x0 := by
  constructor
  · intro i j
    simp only [lap_op, Matrix.of_apply, Fin.val_eq_val]
  · have hd := lap_det_ne_zero n rho gamma hr hg
    exact ⟨_, solveExact_eq_some _ _ hd,
      solveExact_sound _ _ _ (solveExact_eq_some _ _ hd)⟩

theorem smooth_solves_laplacian_witness :
    0 < (1 : ℚ) ∧
    ((∀ i j : Fin 1, lap_op 1 1 1 i j =
      if i = j then 2 + 1 / 1
      else if (i : ℕ) = (j : ℕ) + 1 ∨ (j : ℕ) = (i : ℕ) + 1 then -1 else 0) ∧
    ∃ x, smooth ![1] 1 1 = some x ∧
      ((1 : ℚ) • lap_op 1 1 1) *ᵥ x = (1 : ℚ) • ![1]) :=
  ⟨by norm_num, smooth_solves_laplacian 1 ![1] 1 1 (by norm_num) (by norm_num)⟩

/-! ## Nuclear norm -/

/-- `nucnorm(x0, rho, gamma)` from `operators.py`, with the singular value
decomposition `u, s, v = np.linalg.svd(x0, full_matrices=False)` computed by
the external SVD routine supplied as inputs: soft-threshold the singular
values, `sthr = np.maximum(s - gamma / float(rho), 0)`, and reconstruct
`u.dot(np.diag(sthr)).dot(v)`. -/
def nucnorm {m n k : ℕ} (u : Matrix (Fin m) (Fin k) ℚ) (s : Fin k → ℚ)
    (v : Matrix (Fin k) (Fin n) ℚ) (rho gamma : ℚ) :
    Matrix (Fin m) (Fin n) ℚ :=
  u * Matrix.diagonal (fun i => max (s i - gamma / rho) 0) * v

/-- C8: given a singular value decomposition `x0 = u * diag(s) * v` of `x0`,
`nucnorm` returns the reconstruction `u * diag(sthr) * v` in which each
`sthr i` soft-thresholds the singular value `s i` with threshold
`lmbda = gamma / rho`: it equals `s i - lmbda` when `lmbda ≤ s i`, equals `0`
when `s i ≤ lmbda`, and only shrinks nonnegative singular values toward `0`. -/
theorem nucnorm_soft_thresholds (m n k : ℕ) (u : Matrix (Fin m) (Fin k) ℚ)
    (s : Fin k → ℚ) (v : Matrix (Fin k) (Fin n) ℚ)
    (x0 : Matrix (Fin m) (Fin n) ℚ) (rho gamma : ℚ)
    (hr : 0 < rho) (hg : 0 < gamma)
    (hsvd : x0 = u * Matrix.diagonal s * v) :
    ∃ sthr : Fin k → ℚ,
      nucnorm u s v rho gamma = u * Matrix.diagonal sthr * v ∧
      ∀ i, (gamma / rho ≤ s i → sthr i = s i - gamma / rho) ∧
        (s i ≤ gamma / rho → sthr i = 0) ∧
        (0 ≤ s i → 0 ≤ sthr i ∧ sthr i ≤ s i) := by
  refine ⟨fun i => max (s i - gamma / rho) 0, rfl, fun i => ⟨?_, ?_, ?_⟩⟩
  · intro h
    exact max_eq_left (by linarith)
  · intro h
    exact max_eq_right (by linarith)
  · intro h
    have hl : 0 < gamma / rho := div_pos hg hr
    exact ⟨le_max_right _ _, max_le (by linarith) h⟩

theorem nucnorm_soft_thresholds_witness :
    0 < (1 : ℚ) ∧
    Matrix.diagonal ![(3 : ℚ)]
        = (1 : Matrix (Fin 1) (Fin 1) ℚ) * Matrix.diagonal ![3] * 1 ∧
    (∃ sthr : Fin 1 → ℚ,
      nucnorm (1 : Matrix (Fin 1) (Fin 1) ℚ) ![3] 1 1 1
          = 1 * Matrix.diagonal sthr * 1 ∧
      ∀ i, ((1 : ℚ) / 1 ≤ ![(3 : ℚ)] i → sthr i = ![(3 : ℚ)] i - 1 / 1) ∧
        (![(3 : ℚ)] i ≤ 1 / 1 → sthr i = 0) ∧
        (0 ≤ ![(3 : ℚ)] i → 0 ≤ sthr i ∧ sthr i ≤ ![(3 : ℚ)] i)) :=
  ⟨by norm_num, by simp,
    nucnorm_soft_thresholds 1 1 1 1 ![3] 1 (Matrix.diagonal ![3]) 1 1
      (by norm_num) (by norm_num) (by simp)⟩

/-! ## Array shapes: the NDArray layer -/

/-- A numpy array: a shape together with the flat (C-order) data. -/
structure NDArray where
  shape : List ℕ
  data : List ℚ
deriving DecidableEq

/-- Elementwise application, preserving the shape (numpy ufunc semantics). -/
def NDArray.map (f : ℚ → ℚ) (a : NDArray) : NDArray :=
  ⟨a.shape, a.data.map f⟩

/-- Modelled from the spec: the external Sum-of-Functions optimizer object
(the `SFO` class of `SFO_admm.py`, which is not part of this module). Its
state holds the current flat parameter vector with its proximal weight, the
previous ADMM point, one opaque iteration map `step` standing for the
optimizer internals, and `misc`, the rest of its internal state, which the
adapter never touches. -/
structure SFO where
  theta_flat : List ℚ
  theta_weight : ℚ
  theta_admm_prev : List ℚ
  step : List ℚ → List ℚ
  misc : List ℚ

/-- Modelled from the spec: `optimizer.set_theta(x0, float(rho))` sets the
current parameter point to `x0` at weight `rho`. -/
def SFO.set_theta (o : SFO) (x0 : NDArray) (rho : ℚ) : SFO :=
  { o with theta_flat := x0.data, theta_weight := rho }

/-- Modelled from the spec: `optimizer.theta_original_to_flat(x0)` converts
a parameter array to the optimizer flat parameter vector. -/
def SFO.theta_original_to_flat (o : SFO) (x0 : NDArray) : List ℚ :=
  x0.data

/-- Modelled from the spec: `optimizer.optimize(num_steps)` runs `num_steps`
optimizer iterations from the current parameter point and returns the
resulting flat parameter vector. -/
def SFO.optimize (o : SFO) (num_steps : ℕ) : List ℚ × SFO :=
  let th := o.step^[num_steps] o.theta_flat
  (th, { o with theta_flat := th })

/-- `sfo(x0, rho, optimizer, num_steps=50)` from `operators.py`: set the
current parameter via `set_theta`, overwrite `theta_admm_prev` with the
flattened `x0`, then run the optimizer for `num_steps` steps. -/
def sfo (x0 : NDArray) (rho : ℚ) (optimizer : SFO) (num_steps : ℕ := 50) :
    List ℚ × SFO :=
  let o1 := optimizer.set_theta x0 rho
  let o2 := { o1 with theta_admm_prev := o1.theta_original_to_flat x0 }
  o2.optimize num_steps

/-- C9: `sfo` sets the optimizer current parameter point to `x0` at weight
`rho`, overwrites the previous-ADMM-point field with the flattened `x0`,
runs exactly `num_steps` optimizer iterations from that point and returns
the resulting parameter vector; the remaining optimizer state (`step`,
`misc`) is untouched, and — the embedding being a pure function of its
arguments — neither the inputs nor any module state is modified. -/
theorem sfo_effects (x0 : NDArray) (rho : ℚ) (optimizer : SFO)
    (num_steps : ℕ) :
    (sfo x0 rho optimizer num_steps).1
        = optimizer.step^[num_steps] x0.data ∧
    (sfo x0 rho optimizer num_steps).2.theta_flat
        = (sfo x0 rho optimizer num_steps).1 ∧
    (sfo x0 rho optimizer num_steps).2.theta_weight = rho ∧
    (sfo x0 rho optimizer num_steps).2.theta_admm_prev = x0.data ∧
    (sfo x0 rho optimizer num_steps).2.step = optimizer.step ∧
    (sfo x0 rho optimizer num_steps).2.misc = optimizer.misc :=
  ⟨rfl, rfl, rfl, rfl, rfl, rfl⟩
